import Mathlib

/-!
Verification of the RustScribe transcription post-processing pipeline
(`src/transcribe/processor.rs`) against its natural-language specification.

Shallow embedding conventions:
* All floating-point seconds / confidences are modelled as `ℚ`.
* A Rust `Option<String>` time field that is then parsed with
  `str::parse::<f64>().ok()` is modelled directly as `Option ℚ`:
  `none` means "absent or unparseable", `some q` means "present and parsed
  to the value q".  Both passes of `process_segments` only ever use the
  composite `present-and-parses` value, so this abstraction is faithful.
* The stateful accumulator loop of `process_segments` is embedded as a left
  fold over the item list with an explicit state record whose fields carry
  the names of the Rust local variables.
* The async polling loop of `wait_for_completion` is embedded as a function
  from the scripted list of statuses returned by successive
  `get_transcription_job` calls to (outcome, sleep durations, number of
  status queries consumed).  Network transport and the progress bar are
  external collaborators and are not modelled.
-/

/-- One alternative of a transcript item (`struct Alternative`; renamed because Lean already defines `Alternative`).
`confidence` models `Option<String>` composed with `parse::<f64>().ok()`. -/
structure ItemAlternative where
  confidence : Option ℚ
  content : String
deriving Repr, DecidableEq

/-- One raw item of the AWS transcript (`struct TranscriptItem`).
`item_type` is the literal string tag ("pronunciation" / "punctuation"). -/
structure TranscriptItem where
  start_time : Option ℚ
  end_time : Option ℚ
  item_type : String
  alternatives : List ItemAlternative
  speaker_label : Option String
deriving Repr, DecidableEq

/-- Top-level transcript text record (`struct TranscriptText`). -/
structure TranscriptText where
  transcript : String
deriving Repr, DecidableEq

/-- The results record of the raw transcript document
(`struct TranscriptResults`); the `speaker_labels` field is never read by
the processing code and is omitted. -/
structure TranscriptResults where
  transcripts : List TranscriptText
  items : List TranscriptItem
deriving Repr, DecidableEq

/-- An emitted segment (`TranscriptSegment` of `transcribe/mod.rs`). -/
structure TranscriptSegment where
  start_time : ℚ
  end_time : ℚ
  text : String
  confidence : Option ℚ
  speaker_id : Option String
deriving Repr, DecidableEq

/-- A word-level timestamp (`WordTimestamp` of `output/formatters`). -/
structure WordTimestamp where
  word : String
  start_time : ℚ
  end_time : ℚ
  confidence : Option ℚ
  speaker_id : Option String
deriving Repr, DecidableEq

/-- Metadata of the final result (`TranscriptionMetadata`), restricted to
the fields computed by `process_transcription_result` from the data in
scope of this development (job id, language, wall-clock duration and
completion timestamp come from external collaborators). -/
structure TranscriptionMetadata where
  audio_duration : Option ℚ
  confidence : Option ℚ
deriving Repr, DecidableEq

/-- Final assembled output (`struct ProcessedTranscription`). -/
structure ProcessedTranscription where
  transcript : String
  segments : List TranscriptSegment
  metadata : TranscriptionMetadata
  words : Option (List WordTimestamp)
deriving Repr, DecidableEq

/-! ## Job poller (`wait_for_completion`, lines 95–146) -/

/-- A job status as returned by one `get_transcription_job` call.
`unknownStatus` covers the wildcard arm `_` of the Rust `match`
(any unrecognized or absent status). -/
inductive JobStatus where
  | inProgress
  | completed
  | failed (reason : Option String)
  | unknownStatus
deriving Repr, DecidableEq

/-- Outcome of the polling loop.  `starved` is a model artifact: the
scripted status list ran out while the job was still in progress (the real
loop would simply keep polling). -/
inductive PollOutcome where
  | completed
  | error (msg : String)
  | starved
deriving Repr, DecidableEq

/-- The polling loop of `wait_for_completion` (lines 107–141), run against
a scripted list of statuses.  Returns the outcome, the list of sleep
durations (seconds) in order, and the number of status queries issued.
`check_count` is the number of checks performed before this call, so it is
0 at the top-level entry and is incremented at the top of each iteration,
exactly as in the source. -/
def waitLoop : Nat → List JobStatus → PollOutcome × List Nat × Nat
  | _, [] => (.starved, [], 0)
  | check_count, status :: rest =>
    let cc := check_count + 1
    match status with
    | .inProgress =>
      let wait_time := min (5 + (cc - 1) * 2) 30
      let r := waitLoop cc rest
      (r.1, wait_time :: r.2.1, r.2.2 + 1)
    | .completed => (.completed, [], 1)
    | .failed reason =>
      (.error ("Transcription job failed: " ++ reason.getD "Unknown error"), [], 1)
    | .unknownStatus => (.error "Unexpected transcription job status", [], 1)

/-- Entry point of the poller: `check_count` starts at 0. -/
def wait_for_completion (statuses : List JobStatus) : PollOutcome × List Nat × Nat :=
  waitLoop 0 statuses

/-! ## Word extraction (first pass of `process_segments`, lines 229–246) -/

/-- First pass of `process_segments`: one `WordTimestamp` per pronunciation
item whose start and end times are present and parse, and whose
alternatives list is non-empty. -/
def extractWords (items : List TranscriptItem) : List WordTimestamp :=
  items.filterMap fun item =>
    if item.item_type = "pronunciation" then
      match item.start_time, item.end_time with
      | some start_time, some end_time =>
        match item.alternatives.head? with
        | some alt =>
          some { word := alt.content
                 start_time := start_time
                 end_time := end_time
                 confidence := alt.confidence
                 speaker_id := item.speaker_label }
        | none => none
      | _, _ => none
    else none

/-! ## Segmentation (second pass of `process_segments`, lines 248–341) -/

/-- Accumulator state of the segmentation loop.  The fields carry the names
of the Rust local variables of `process_segments`. -/
structure SegState where
  segments : List TranscriptSegment
  current_segment_text : String
  current_start_time : Option ℚ
  current_end_time : Option ℚ
  confidences : List ℚ
  current_speaker : Option String
deriving Repr, DecidableEq

/-- Initial accumulator state (lines 249–253). -/
def initSegState : SegState :=
  { segments := []
    current_segment_text := ""
    current_start_time := none
    current_end_time := none
    confidences := []
    current_speaker := none }

/-- Model of Rust `str::ends_with(char)`: the last character of the string
equals `c`.  (Defined on the character list so that it is structurally
recursive; `String.endsWith` is not used because its byte-position loops do
not reduce definitionally.) -/
def endsWithChar (s : String) (c : Char) : Bool :=
  s.data.getLast? = some c

/-- Model of Rust `str::trim`: drop leading and trailing whitespace.
(Defined on the character list for the same reason as `endsWithChar`.) -/
def rustTrim (s : String) : String :=
  String.mk (((s.data.dropWhile Char.isWhitespace).reverse.dropWhile
    Char.isWhitespace).reverse)

/-- Average of a confidence list (`average_confidence`, lines 344–350):
`None` for the empty list, arithmetic mean otherwise. -/
def average_confidence (confidences : List ℚ) : Option ℚ :=
  if confidences = [] then none
  else some (confidences.sum / (confidences.length : ℚ))

/-- Overall confidence (`calculate_average_confidence`, lines 353–360):
mean of the per-segment confidences that are present. -/
def calculate_average_confidence (segments : List TranscriptSegment) : Option ℚ :=
  average_confidence (segments.filterMap fun s => s.confidence)

/-- The `should_split` computation for a pronunciation item
(lines 270–285). -/
def splitDecision (max_segment_length : ℚ) (st : SegState) (item : TranscriptItem) : Bool :=
  let start_time := item.start_time
  let content := ((item.alternatives.head?).map fun alt => alt.content).getD ""
  let speaker_changed : Bool := decide (st.current_speaker ≠ item.speaker_label)
  let time_gap : Bool :=
    match start_time, st.current_end_time with
    | some start, some e => decide (start - e > 1)
    | _, _ => false
  let segment_too_long : Bool :=
    match st.current_start_time, start_time with
    | some seg_start, some current => decide (current - seg_start > max_segment_length)
    | _, _ => false
  let natural_break : Bool :=
    endsWithChar content '.' || endsWithChar content '!' || endsWithChar content '?'
  let min_natural_break_length := max_segment_length / 2
  let past_half : Bool :=
    match st.current_start_time, start_time with
    | some seg_start, some current => decide (current - seg_start > min_natural_break_length)
    | _, _ => false
  speaker_changed || time_gap || segment_too_long || (natural_break && past_half) ||
    decide (st.current_segment_text = "")

/-- Closing the accumulator (the "save previous segment" block, repeated at
lines 288–299 and 327–338): a segment is produced only when the text is
non-empty and both boundary times are known. -/
def closeSegment (st : SegState) : List TranscriptSegment :=
  if st.current_segment_text ≠ "" then
    match st.current_start_time, st.current_end_time with
    | some start, some e =>
      [{ start_time := start
         end_time := e
         text := rustTrim st.current_segment_text
         confidence := average_confidence st.confidences
         speaker_id := st.current_speaker }]
    | _, _ => []
  else []

/-- One iteration of the segmentation loop (lines 255–325). -/
def processItem (max_segment_length : ℚ) (st : SegState) (item : TranscriptItem) : SegState :=
  if item.item_type = "pronunciation" then
    let start_time := item.start_time
    let end_time := item.end_time
    let content := ((item.alternatives.head?).map fun alt => alt.content).getD ""
    let confidence := (item.alternatives.head?).bind fun alt => alt.confidence
    if splitDecision max_segment_length st item then
      { segments := st.segments ++ closeSegment st
        current_segment_text := content
        current_start_time := start_time
        current_end_time := end_time
        confidences := confidence.toList
        current_speaker := item.speaker_label }
    else
      { st with
        current_segment_text :=
          (if st.current_segment_text = "" then st.current_segment_text
           else st.current_segment_text ++ " ") ++ content
        current_end_time := end_time.or st.current_end_time
        confidences :=
          match confidence with
          | some conf => st.confidences ++ [conf]
          | none => st.confidences }
  else if item.item_type = "punctuation" then
    match item.alternatives.head? with
    | some alt =>
      { st with current_segment_text := st.current_segment_text ++ alt.content }
    | none => st
  else st

/-- The full `process_segments` (lines 225–341): word extraction pass, then
segmentation fold, then the final-segment flush. -/
def process_segments (max_segment_length : ℚ) (items : List TranscriptItem) :
    List TranscriptSegment × List WordTimestamp :=
  let words := extractWords items
  let final := items.foldl (processItem max_segment_length) initSegState
  (final.segments ++ closeSegment final, words)

/-! ## Instrumented segmentation

`process_segmentsG` is `process_segments` with ghost bookkeeping: each
emitted segment is paired with the list of pronunciation items that were
absorbed into it, and the accumulator records the pronunciation items
absorbed since its last reset.  `eraseG` forgets the ghost data;
`eraseG_processItem` (below) proves the instrumentation changes nothing. -/

/-- The confidence attributed to an item by the segmentation loop: the
first alternative's confidence, when present. -/
def itemConf (item : TranscriptItem) : Option ℚ :=
  (item.alternatives.head?).bind fun alt => alt.confidence

/-- Ghost-instrumented accumulator state. -/
structure SegStateG where
  segments : List (TranscriptSegment × List TranscriptItem)
  current_segment_text : String
  current_start_time : Option ℚ
  current_end_time : Option ℚ
  confidences : List ℚ
  current_speaker : Option String
  cur_items : List TranscriptItem
deriving Repr, DecidableEq

/-- Forget the ghost data. -/
def eraseG (g : SegStateG) : SegState :=
  { segments := g.segments.map Prod.fst
    current_segment_text := g.current_segment_text
    current_start_time := g.current_start_time
    current_end_time := g.current_end_time
    confidences := g.confidences
    current_speaker := g.current_speaker }

/-- Ghost-instrumented initial state. -/
def initSegStateG : SegStateG :=
  { segments := []
    current_segment_text := ""
    current_start_time := none
    current_end_time := none
    confidences := []
    current_speaker := none
    cur_items := [] }

/-- Ghost-instrumented `closeSegment`: the emitted segment (if any) is
paired with the pronunciation items absorbed into it. -/
def closeSegmentG (g : SegStateG) : List (TranscriptSegment × List TranscriptItem) :=
  (closeSegment (eraseG g)).map fun s => (s, g.cur_items)

/-- Ghost-instrumented `processItem`. -/
def processItemG (max_segment_length : ℚ) (g : SegStateG) (item : TranscriptItem) : SegStateG :=
  if item.item_type = "pronunciation" then
    let content := ((item.alternatives.head?).map fun alt => alt.content).getD ""
    let confidence := itemConf item
    if splitDecision max_segment_length (eraseG g) item then
      { segments := g.segments ++ closeSegmentG g
        current_segment_text := content
        current_start_time := item.start_time
        current_end_time := item.end_time
        confidences := confidence.toList
        current_speaker := item.speaker_label
        cur_items := [item] }
    else
      { g with
        current_segment_text :=
          (if g.current_segment_text = "" then g.current_segment_text
           else g.current_segment_text ++ " ") ++ content
        current_end_time := item.end_time.or g.current_end_time
        confidences :=
          match confidence with
          | some conf => g.confidences ++ [conf]
          | none => g.confidences
        cur_items := g.cur_items ++ [item] }
  else if item.item_type = "punctuation" then
    match item.alternatives.head? with
    | some alt =>
      { g with current_segment_text := g.current_segment_text ++ alt.content }
    | none => g
  else g

/-- Ghost-instrumented `process_segments` (segments only). -/
def process_segmentsG (max_segment_length : ℚ) (items : List TranscriptItem) :
    List (TranscriptSegment × List TranscriptItem) :=
  let final := items.foldl (processItemG max_segment_length) initSegStateG
  final.segments ++ closeSegmentG final

/-- Well-formed-input predicate for the ordering claim: every pronunciation
item has known (parsed) start and end times with `start ≤ end`, and the
items appear in temporal order without overlap — each pronunciation item
starts no earlier than the previous one ended.  `prev` is the end time of
the pronunciation item immediately before the list (if any). -/
def timeOrdered : Option ℚ → List TranscriptItem → Bool
  | _, [] => true
  | prev, item :: rest =>
    if item.item_type = "pronunciation" then
      match item.start_time, item.end_time with
      | some s, some e =>
        decide (s ≤ e) &&
          (match prev with
           | some p => decide (p ≤ s)
           | none => true) &&
          timeOrdered (some e) rest
      | _, _ => false
    else timeOrdered prev rest

/-- The result-assembly step of `process_transcription_result`
(lines 180–206) on an already parsed transcript document: the transcript
string is the first top-level transcript (or empty), segments and words
come from `process_segments`, and the metadata derives audio duration and
overall confidence from the segments. -/
def process_transcription_result (max_segment_length : ℚ) (results : TranscriptResults) :
    ProcessedTranscription :=
  let transcript := ((results.transcripts.head?).map fun t => t.transcript).getD ""
  let sw := process_segments max_segment_length results.items
  { transcript := transcript
    segments := sw.1
    metadata :=
      { audio_duration := (sw.1.getLast?).map fun s => s.end_time
        confidence := calculate_average_confidence sw.1 }
    words := some sw.2 }

/-- Invariant of the ghost-instrumented segmentation state: the confidence
list is exactly the confidences of the absorbed pronunciation items, all
absorbed items carry the accumulator's speaker label, a known start time
implies at least one absorbed item, and every closed segment satisfies the
corresponding properties. -/
def GhostInv (g : SegStateG) : Prop :=
  g.confidences = g.cur_items.filterMap itemConf ∧
  (∀ it ∈ g.cur_items, it.speaker_label = g.current_speaker) ∧
  (g.current_start_time.isSome → g.cur_items ≠ []) ∧
  (∀ p ∈ g.segments,
    p.2 ≠ [] ∧ p.1.confidence = average_confidence (p.2.filterMap itemConf) ∧
    ∀ it ∈ p.2, it.speaker_label = p.1.speaker_id)

/-- Ordering invariant of the segmentation loop, parameterized by `prev`,
the end time of the most recently processed pronunciation item (none if no
pronunciation item has been processed): the accumulator's end time equals
`prev`; before the first reset no segment has been emitted; a known
accumulator start lies below `prev` and above the last emitted segment's
end; and the emitted segments are chained (each ends no later than the
next starts) with `start ≤ end` inside each. -/
def OrdInv (prev : Option ℚ) (st : SegState) : Prop :=
  st.current_end_time = prev ∧
  (st.current_start_time = none → st.segments = []) ∧
  (∀ s, st.current_start_time = some s →
    (∃ e, prev = some e ∧ s ≤ e) ∧
    ∀ L, st.segments.getLast? = some L → L.end_time ≤ s) ∧
  List.Chain' (fun a b => a.end_time ≤ b.start_time) st.segments ∧
  (∀ seg ∈ st.segments, seg.start_time ≤ seg.end_time)

/-! ## Theorems -/

/-- Helper: one loop iteration on an `InProgress` answer sleeps
`min (5 + c*2) 30` seconds (this is the `(c+1)`-th check) and recurses. -/
theorem waitLoop_cons_inProgress (c : Nat) (rest : List JobStatus) :
    waitLoop c (.inProgress :: rest) =
      ((waitLoop (c + 1) rest).1,
       min (5 + c * 2) 30 :: (waitLoop (c + 1) rest).2.1,
       (waitLoop (c + 1) rest).2.2 + 1) := by
  simp [waitLoop]

/-- Helper: running the poll loop against `n` `InProgress` answers followed
by `Completed`, starting after `c` earlier checks, succeeds after sleeping
`min (5 + (c+i)*2) 30` seconds for `i = 0, …, n−1` and issuing `n + 1`
status queries. -/
theorem waitLoop_replicate (n : Nat) : ∀ c : Nat,
    waitLoop c (List.replicate n .inProgress ++ [.completed]) =
      (.completed, (List.range n).map (fun i => min (5 + (c + i) * 2) 30), n + 1) := by
  induction n with
  | zero => intro c; simp [waitLoop]
  | succ n ih =>
    intro c
    rw [List.replicate_succ, List.cons_append, waitLoop_cons_inProgress, ih (c + 1)]
    rw [List.range_succ_eq_map, List.map_cons, List.map_map]
    refine congrArg (fun l => (PollOutcome.completed, min (5 + c * 2) 30 :: l, n + 1 + 1)) ?_
    apply List.map_congr_left
    intro i _
    show min (5 + (c + 1 + i) * 2) 30 = min (5 + (c + Nat.succ i) * 2) 30
    congr 1
    omega

/-- C1: when the status collaborator reports `InProgress` `n` times and then
`Completed`, the poller sleeps `min (5 + (k−1)*2) 30` seconds after the
k-th check (1-based; with the map index `k = i + 1`), i.e. 5s, 7s, 9s, …
capped at 30s, and issues `n + 1` status queries; in particular for `n = 3`
the observed backoff intervals are exactly 5s, 7s and 9s and 4 status
queries are issued.  The third conjunct states the general backoff law for
any single `InProgress` answer: on the `(c+1)`-th check the sleep is
`min (5 + c*2) 30` seconds. -/
theorem c1_poller_backoff :
    (∀ n : Nat,
      wait_for_completion (List.replicate n .inProgress ++ [.completed]) =
        (.completed, (List.range n).map (fun k => min (5 + k * 2) 30), n + 1)) ∧
    wait_for_completion [.inProgress, .inProgress, .inProgress, .completed] =
      (.completed, [5, 7, 9], 4) ∧
    (∀ (c : Nat) (rest : List JobStatus),
      waitLoop c (.inProgress :: rest) =
        ((waitLoop (c + 1) rest).1,
         min (5 + c * 2) 30 :: (waitLoop (c + 1) rest).2.1,
         (waitLoop (c + 1) rest).2.2 + 1)) := by
  refine ⟨?_, by decide, fun c rest => waitLoop_cons_inProgress c rest⟩
  intro n
  have h := waitLoop_replicate n 0
  simpa [wait_for_completion] using h

/-- C8: a `Failed` status stops polling immediately (one query, nothing
consumed after it) and fails with the service-supplied reason embedded
verbatim in the error message, or the placeholder "Unknown error" when the
service provides none; any other unrecognized/absent status fails with the
distinct "unexpected status" message, which differs from every possible
`Failed` message.  The last conjunct is Scenario F. -/
theorem c8_failure_handling :
    (∀ (c : Nat) (r : String) (rest : List JobStatus),
      waitLoop c (.failed (some r) :: rest) =
        (.error ("Transcription job failed: " ++ r), [], 1)) ∧
    (∀ (c : Nat) (rest : List JobStatus),
      waitLoop c (.failed none :: rest) =
        (.error "Transcription job failed: Unknown error", [], 1)) ∧
    (∀ (c : Nat) (rest : List JobStatus),
      waitLoop c (.unknownStatus :: rest) =
        (.error "Unexpected transcription job status", [], 1)) ∧
    (∀ r : String,
      "Transcription job failed: " ++ r ≠ "Unexpected transcription job status") ∧
    wait_for_completion [.failed (some "Unsupported media format")] =
      (.error "Transcription job failed: Unsupported media format", [], 1) := by
  refine ⟨?_, ?_, ?_, ?_, by decide⟩
  · intro c r rest; simp [waitLoop]
  · intro c rest; simp [waitLoop]
  · intro c rest; simp [waitLoop]
  · intro r h
    have h1 : ("Transcription job failed: " ++ r).data.head? = some 'T' := by
      rw [String.data_append]; rfl
    rw [h] at h1
    exact absurd h1 (by decide)

/-- C3 (counterexample): the `transcript` field comes from the raw
document's top-level transcript text, not from the emitted segment texts:
with top-level text "xyz" and items producing one segment "Hello world.",
the transcript is "xyz", not the segment concatenation. -/
theorem c3_counterexample :
    (process_transcription_result 30
      ⟨[⟨"xyz"⟩],
       [⟨some 0, some (1/2), "pronunciation", [⟨none, "Hello"⟩], none⟩,
        ⟨some (1/2), some 1, "pronunciation", [⟨none, "world"⟩], none⟩,
        ⟨none, none, "punctuation", [⟨none, "."⟩], none⟩]⟩).transcript = "xyz" ∧
    String.join ((process_transcription_result 30
      ⟨[⟨"xyz"⟩],
       [⟨some 0, some (1/2), "pronunciation", [⟨none, "Hello"⟩], none⟩,
        ⟨some (1/2), some 1, "pronunciation", [⟨none, "world"⟩], none⟩,
        ⟨none, none, "punctuation", [⟨none, "."⟩], none⟩]⟩).segments.map
      fun s => s.text) = "Hello world." ∧
    ("xyz" : String) ≠ "Hello world." :=
  ⟨by with_unfolding_all decide, by with_unfolding_all decide, by decide⟩

/-- C3 (amended): the `transcript` field of the final result equals the
first top-level transcript string of the raw document (empty when the
document lists none); it is not derived from the emitted segments — it is
unchanged under any replacement of the item list. -/
theorem c3_transcript_source (m : ℚ) (results : TranscriptResults) :
    (process_transcription_result m results).transcript =
      ((results.transcripts.head?).map fun t => t.transcript).getD "" ∧
    ∀ items2 : List TranscriptItem,
      (process_transcription_result m { results with items := items2 }).transcript =
        (process_transcription_result m results).transcript :=
  ⟨rfl, fun _ => rfl⟩

/-- C4 (counterexample): a pronunciation item whose start and end times are
present and parse but whose alternatives list is empty yields NO
`WordTimestamp`, whereas the claim (reading "the item's text" the way the
segmentation pass does, first alternative's content defaulting to "")
predicts exactly one. -/
theorem c4_counterexample :
    extractWords [⟨some 0, some 1, "pronunciation", [], none⟩] = [] ∧
    ([(⟨some 0, some 1, "pronunciation", [], none⟩ : TranscriptItem)].filter fun it =>
        it.item_type = "pronunciation" && it.start_time.isSome && it.end_time.isSome).map
      (fun it =>
        ({ word := ((it.alternatives.head?).map fun a => a.content).getD ""
           start_time := it.start_time.getD 0
           end_time := it.end_time.getD 0
           confidence := (it.alternatives.head?).bind fun a => a.confidence
           speaker_id := it.speaker_label } : WordTimestamp)) =
      [{ word := "", start_time := 0, end_time := 1, confidence := none, speaker_id := none }] ∧
    ([] : List WordTimestamp) ≠
      [{ word := "", start_time := 0, end_time := 1, confidence := none, speaker_id := none }] := by
  refine ⟨by with_unfolding_all decide, by with_unfolding_all decide, by with_unfolding_all decide⟩

/-- C4 (amended): the word list is exactly one `WordTimestamp`, in source
order, for every pronunciation item whose start and end times are present
and parse AND whose alternatives list is non-empty, carrying the first
alternative's content and confidence and the item's times and speaker
label; items with missing/unparseable times or no alternatives are
silently skipped. -/
theorem c4_word_extraction (items : List TranscriptItem) :
    extractWords items =
      (items.filter fun it =>
        it.item_type = "pronunciation" && it.start_time.isSome && it.end_time.isSome &&
          !it.alternatives.isEmpty).map
        (fun it =>
          { word := ((it.alternatives.head?).map fun a => a.content).getD ""
            start_time := it.start_time.getD 0
            end_time := it.end_time.getD 0
            confidence := (it.alternatives.head?).bind fun a => a.confidence
            speaker_id := it.speaker_label }) := by
  induction items with
  | nil => rfl
  | cons it rest ih =>
    simp only [extractWords] at ih ⊢
    rw [List.filterMap_cons, List.filter_cons]
    by_cases hp : it.item_type = "pronunciation" <;>
      rcases hs : it.start_time with _ | s <;>
      rcases he : it.end_time with _ | e <;>
      rcases ha : it.alternatives with _ | ⟨alt, alts⟩ <;>
      simp [hp, hs, he, ha, ih]

/-- C10: whenever the accumulator is closed while its text is non-empty but
its start or end time is unset, no segment is emitted (first conjunct, the
shared "save previous segment" guard); end-to-end, a pronunciation item
with unparseable timestamps followed by punctuation accumulates the text
"Hello." and yet the pipeline emits no segment at all, silently discarding
the text. -/
theorem c10_timeless_accumulator_discarded :
    (∀ st : SegState, st.current_segment_text ≠ "" →
      st.current_start_time = none ∨ st.current_end_time = none →
      closeSegment st = []) ∧
    (List.foldl (processItem 30) initSegState
        [⟨none, none, "pronunciation", [⟨none, "Hello"⟩], none⟩,
         ⟨none, none, "punctuation", [⟨none, "."⟩], none⟩]).current_segment_text = "Hello." ∧
    process_segments 30
        [⟨none, none, "pronunciation", [⟨none, "Hello"⟩], none⟩,
         ⟨none, none, "punctuation", [⟨none, "."⟩], none⟩] = ([], []) := by
  refine ⟨?_, by with_unfolding_all decide, by with_unfolding_all decide⟩
  intro st htext hnone
  unfold closeSegment
  rcases hnone with h | h
  · simp [h, htext]
  · rcases hs : st.current_start_time with _ | s <;> simp [h, hs, htext]

/-- Witness for C10: a concrete non-empty accumulator with no start time
closes to nothing. -/
theorem c10_witness :
    closeSegment { segments := [], current_segment_text := "x", current_start_time := none,
                   current_end_time := none, confidences := [], current_speaker := none } = [] :=
  c10_timeless_accumulator_discarded.1 _ (by decide) (Or.inl rfl)


/-- Helper: branch equation for `processItem` when a pronunciation item
triggers a split. -/
theorem processItem_split (m : ℚ) (st : SegState) (item : TranscriptItem)
    (hp : item.item_type = "pronunciation")
    (hs : splitDecision m st item = true) :
    processItem m st item =
      { segments := st.segments ++ closeSegment st
        current_segment_text := ((item.alternatives.head?).map fun alt => alt.content).getD ""
        current_start_time := item.start_time
        current_end_time := item.end_time
        confidences := ((item.alternatives.head?).bind fun alt => alt.confidence).toList
        current_speaker := item.speaker_label } := by
  simp [processItem, hp, hs]

/-- Helper: branch equation for `processItem` when a pronunciation item is
absorbed into the current segment. -/
theorem processItem_absorb (m : ℚ) (st : SegState) (item : TranscriptItem)
    (hp : item.item_type = "pronunciation")
    (hs : splitDecision m st item = false) :
    processItem m st item =
      { st with
        current_segment_text :=
          (if st.current_segment_text = "" then st.current_segment_text
           else st.current_segment_text ++ " ") ++
            ((item.alternatives.head?).map fun alt => alt.content).getD ""
        current_end_time := item.end_time.or st.current_end_time
        confidences :=
          match (item.alternatives.head?).bind fun alt => alt.confidence with
          | some conf => st.confidences ++ [conf]
          | none => st.confidences } := by
  simp [processItem, hp, hs]

/-- Helper: branch equation for `processItem` on a punctuation item. -/
theorem processItem_punct (m : ℚ) (st : SegState) (item : TranscriptItem)
    (hq : item.item_type = "punctuation") :
    processItem m st item =
      (match item.alternatives.head? with
       | some alt => { st with current_segment_text := st.current_segment_text ++ alt.content }
       | none => st) := by
  have hp : ¬ item.item_type = "pronunciation" := by rw [hq]; decide
  simp [processItem, hp, hq]

/-- Helper: branch equation for `processItem` on any other item type. -/
theorem processItem_other (m : ℚ) (st : SegState) (item : TranscriptItem)
    (hp : ¬ item.item_type = "pronunciation")
    (hq : ¬ item.item_type = "punctuation") :
    processItem m st item = st := by
  simp [processItem, hp, hq]

/-- Helper: branch equation for `processItemG` on a splitting item. -/
theorem processItemG_split (m : ℚ) (g : SegStateG) (item : TranscriptItem)
    (hp : item.item_type = "pronunciation")
    (hs : splitDecision m (eraseG g) item = true) :
    processItemG m g item =
      { segments := g.segments ++ closeSegmentG g
        current_segment_text := ((item.alternatives.head?).map fun alt => alt.content).getD ""
        current_start_time := item.start_time
        current_end_time := item.end_time
        confidences := (itemConf item).toList
        current_speaker := item.speaker_label
        cur_items := [item] } := by
  simp [processItemG, hp, hs]

/-- Helper: branch equation for `processItemG` on an absorbed item. -/
theorem processItemG_absorb (m : ℚ) (g : SegStateG) (item : TranscriptItem)
    (hp : item.item_type = "pronunciation")
    (hs : splitDecision m (eraseG g) item = false) :
    processItemG m g item =
      { g with
        current_segment_text :=
          (if g.current_segment_text = "" then g.current_segment_text
           else g.current_segment_text ++ " ") ++
            ((item.alternatives.head?).map fun alt => alt.content).getD ""
        current_end_time := item.end_time.or g.current_end_time
        confidences :=
          match itemConf item with
          | some conf => g.confidences ++ [conf]
          | none => g.confidences
        cur_items := g.cur_items ++ [item] } := by
  simp [processItemG, hp, hs]

/-- Helper: branch equation for `processItemG` on a punctuation item. -/
theorem processItemG_punct (m : ℚ) (g : SegStateG) (item : TranscriptItem)
    (hq : item.item_type = "punctuation") :
    processItemG m g item =
      (match item.alternatives.head? with
       | some alt => { g with current_segment_text := g.current_segment_text ++ alt.content }
       | none => g) := by
  have hp : ¬ item.item_type = "pronunciation" := by rw [hq]; decide
  simp [processItemG, hp, hq]

/-- Helper: branch equation for `processItemG` on any other item type. -/
theorem processItemG_other (m : ℚ) (g : SegStateG) (item : TranscriptItem)
    (hp : ¬ item.item_type = "pronunciation")
    (hq : ¬ item.item_type = "punctuation") :
    processItemG m g item = g := by
  simp [processItemG, hp, hq]

/-- Helper: mapping first projections over a constant pairing is the
identity. -/
theorem map_fst_pair {α β : Type} (l : List α) (x : β) :
    (l.map fun s => (s, x)).map Prod.fst = l := by
  induction l with
  | nil => rfl
  | cons a t ih => simp [ih]

/-- Helper: composed form of `map_fst_pair`. -/
theorem map_comp_fst_pair {α β : Type} (l : List α) (x : β) :
    List.map (Prod.fst ∘ fun s => (s, x)) l = l := by
  induction l with
  | nil => rfl
  | cons a t ih => simp [ih]

/-- Helper: when `should_split` is false, the speaker is unchanged, any
known gap is at most 1 second, any known span increase stays within
`max_segment_length`, and the accumulated text is non-empty. -/
theorem splitDecision_false_parts (m : ℚ) (st : SegState) (item : TranscriptItem)
    (hs : splitDecision m st item = false) :
    st.current_speaker = item.speaker_label ∧
    (∀ s e, item.start_time = some s → st.current_end_time = some e → s - e ≤ 1) ∧
    (∀ s ss, item.start_time = some s → st.current_start_time = some ss → s - ss ≤ m) ∧
    st.current_segment_text ≠ "" := by
  unfold splitDecision at hs
  simp only [Bool.or_eq_false_iff, Bool.and_eq_false_iff, decide_eq_false_iff_not,
    not_not, ne_eq] at hs
  obtain ⟨⟨⟨⟨hspk, hgap⟩, hlong⟩, _⟩, htext⟩ := hs
  refine ⟨hspk, ?_, ?_, htext⟩
  · intro s e h1 h2
    rw [h1, h2] at hgap
    simpa using hgap
  · intro s ss h1 h2
    rw [h2, h1] at hlong
    simpa using hlong

/-- Helper: the instrumentation step projects to the real step. -/
theorem eraseG_processItem (m : ℚ) (g : SegStateG) (item : TranscriptItem) :
    eraseG (processItemG m g item) = processItem m (eraseG g) item := by
  by_cases hp : item.item_type = "pronunciation"
  · cases hsplit : splitDecision m (eraseG g) item with
    | true =>
      rw [processItemG_split m g item hp hsplit, processItem_split m (eraseG g) item hp hsplit]
      simp [eraseG, closeSegmentG, List.map_append, map_fst_pair, map_comp_fst_pair, itemConf]
    | false =>
      rw [processItemG_absorb m g item hp hsplit, processItem_absorb m (eraseG g) item hp hsplit]
      cases hc : (item.alternatives.head?).bind fun alt => alt.confidence <;>
        simp [eraseG, itemConf, hc]
  · by_cases hq : item.item_type = "punctuation"
    · rw [processItemG_punct m g item hq, processItem_punct m (eraseG g) item hq]
      cases ha : item.alternatives.head? <;> simp [ha, eraseG]
    · rw [processItemG_other m g item hp hq, processItem_other m (eraseG g) item hp hq]

/-- Helper: the instrumented fold projects to the real fold. -/
theorem eraseG_foldl (m : ℚ) (items : List TranscriptItem) : ∀ g : SegStateG,
    eraseG (items.foldl (processItemG m) g) = items.foldl (processItem m) (eraseG g) := by
  induction items with
  | nil => intro g; rfl
  | cons it rest ih =>
    intro g
    simp only [List.foldl_cons, ih, eraseG_processItem]

/-- Helper: forgetting the ghost data in the instrumented segment list
yields exactly the segments of `process_segments`. -/
theorem process_segmentsG_fst (m : ℚ) (items : List TranscriptItem) :
    (process_segmentsG m items).map Prod.fst = (process_segments m items).1 := by
  unfold process_segmentsG process_segments
  have h := eraseG_foldl m items initSegStateG
  have hinit : eraseG initSegStateG = initSegState := rfl
  rw [hinit] at h
  rw [← h]
  simp only [List.map_append, closeSegmentG, List.map_map, map_comp_fst_pair]
  rfl

/-- Helper: a pair produced by closing the instrumented accumulator carries
the accumulator's item list, confidence average and speaker, and can only
exist when the accumulator's start time is known. -/
theorem mem_closeSegmentG (g : SegStateG) (p : TranscriptSegment × List TranscriptItem)
    (hp : p ∈ closeSegmentG g) :
    p.2 = g.cur_items ∧ p.1.confidence = average_confidence g.confidences ∧
    p.1.speaker_id = g.current_speaker ∧ g.current_start_time.isSome := by
  unfold closeSegmentG closeSegment at hp
  by_cases ht : (eraseG g).current_segment_text = ""
  · simp [ht] at hp
  · rw [if_pos ht] at hp
    cases hs : (eraseG g).current_start_time with
    | none => simp only [hs] at hp; simp at hp
    | some s =>
      cases he : (eraseG g).current_end_time with
      | none => simp only [hs, he] at hp; simp at hp
      | some e =>
        simp only [hs, he, List.map_cons, List.map_nil, List.mem_singleton] at hp
        subst hp
        have hs2 : g.current_start_time = some s := hs
        exact ⟨rfl, rfl, rfl, by rw [hs2]; rfl⟩

/-- Helper: the ghost invariant holds initially. -/
theorem ghostInv_init : GhostInv initSegStateG := by
  refine ⟨rfl, ?_, ?_, ?_⟩ <;> simp [initSegStateG]

/-- Helper: one instrumented step preserves the ghost invariant. -/
theorem ghostInv_processItem (m : ℚ) (g : SegStateG) (item : TranscriptItem)
    (h : GhostInv g) : GhostInv (processItemG m g item) := by
  obtain ⟨hconf, hspk, hne, hsegs⟩ := h
  by_cases hp : item.item_type = "pronunciation"
  · cases hsplit : splitDecision m (eraseG g) item with
    | true =>
      rw [processItemG_split m g item hp hsplit]
      refine ⟨?_, ?_, ?_, ?_⟩
      · cases hc : itemConf item <;> simp [hc]
      · intro it hit
        simp only [List.mem_singleton] at hit
        subst hit; rfl
      · intro _; simp
      · intro p hpmem
        rw [List.mem_append] at hpmem
        rcases hpmem with h1 | h2
        · exact hsegs p h1
        · obtain ⟨h2a, h2b, h2c, h2d⟩ := mem_closeSegmentG g p h2
          refine ⟨?_, ?_, ?_⟩
          · rw [h2a]; exact hne h2d
          · rw [h2a, h2b, hconf]
          · intro it hit
            rw [h2a] at hit
            rw [hspk it hit, h2c]
    | false =>
      rw [processItemG_absorb m g item hp hsplit]
      have hspeq : g.current_speaker = item.speaker_label :=
        (splitDecision_false_parts m (eraseG g) item hsplit).1
      refine ⟨?_, ?_, ?_, ?_⟩
      · rw [List.filterMap_append, ← hconf]
        cases hc : itemConf item with
        | none => simp [List.filterMap_cons, hc]
        | some c => simp [List.filterMap_cons, hc]
      · intro it hit
        rw [List.mem_append] at hit
        rcases hit with h1 | h1
        · exact hspk it h1
        · simp only [List.mem_singleton] at h1
          subst h1
          exact hspeq.symm
      · intro _
        simp
      · exact hsegs
  · by_cases hq : item.item_type = "punctuation"
    · rw [processItemG_punct m g item hq]
      cases ha : item.alternatives.head? with
      | none => exact ⟨hconf, hspk, hne, hsegs⟩
      | some alt =>
        simp only [ha]
        exact ⟨hconf, hspk, hne, hsegs⟩
    · rw [processItemG_other m g item hp hq]
      exact ⟨hconf, hspk, hne, hsegs⟩

/-- Helper: the ghost invariant holds after folding any item list. -/
theorem ghostInv_foldl (m : ℚ) (items : List TranscriptItem) : ∀ g : SegStateG,
    GhostInv g → GhostInv (items.foldl (processItemG m) g) := by
  induction items with
  | nil => intro g hg; exact hg
  | cons it rest ih =>
    intro g hg
    exact ih _ (ghostInv_processItem m g it hg)

/-- C5: every emitted segment absorbs at least one pronunciation item, all
pronunciation items absorbed into it carry exactly the segment's
`speaker_id` (so no segment mixes two different speaker labels, with `None`
vs `None` counting as unchanged), and in particular the segment's
`speaker_id` equals the label of the first absorbed pronunciation item.
The last conjunct ties the instrumented run to `process_segments` itself. -/
theorem c5_speaker_purity (m : ℚ) (items : List TranscriptItem) :
    (∀ p ∈ process_segmentsG m items,
      p.2 ≠ [] ∧
      (∀ it ∈ p.2, it.speaker_label = p.1.speaker_id) ∧
      p.2.head?.map TranscriptItem.speaker_label = some p.1.speaker_id) ∧
    (process_segmentsG m items).map Prod.fst = (process_segments m items).1 := by
  obtain ⟨hconf, hspk, hne, hsegs⟩ := ghostInv_foldl m items initSegStateG ghostInv_init
  constructor
  · intro p hpmem
    unfold process_segmentsG at hpmem
    rw [List.mem_append] at hpmem
    have hmain : p.2 ≠ [] ∧ ∀ it ∈ p.2, it.speaker_label = p.1.speaker_id := by
      rcases hpmem with h1 | h2
      · obtain ⟨a, _, c⟩ := hsegs p h1
        exact ⟨a, c⟩
      · obtain ⟨h2a, _, h2c, h2d⟩ := mem_closeSegmentG _ p h2
        refine ⟨by rw [h2a]; exact hne h2d, ?_⟩
        intro it hit
        rw [h2a] at hit
        rw [hspk it hit, h2c]
    obtain ⟨hA, hB⟩ := hmain
    refine ⟨hA, hB, ?_⟩
    cases hl : p.2 with
    | nil => exact absurd hl hA
    | cons a t =>
      show some a.speaker_label = some p.1.speaker_id
      exact congrArg some (hB a (by rw [hl]; exact List.mem_cons_self a t))
  · exact process_segmentsG_fst m items

/-- Witness for C5: on a two-speaker input the first emitted segment
carries speaker "spk_0", absorbed exactly the first item, and every
absorbed item agrees with its `speaker_id`. -/
theorem c5_witness :
    ((⟨⟨0, 1, "a", none, some "spk_0"⟩,
       [⟨some 0, some 1, "pronunciation", [⟨none, "a"⟩], some "spk_0"⟩]⟩ :
        TranscriptSegment × List TranscriptItem).2 ≠ [] ∧
     (∀ it ∈ (⟨⟨0, 1, "a", none, some "spk_0"⟩,
       [⟨some 0, some 1, "pronunciation", [⟨none, "a"⟩], some "spk_0"⟩]⟩ :
        TranscriptSegment × List TranscriptItem).2,
        it.speaker_label =
          (⟨⟨0, 1, "a", none, some "spk_0"⟩,
            [⟨some 0, some 1, "pronunciation", [⟨none, "a"⟩], some "spk_0"⟩]⟩ :
            TranscriptSegment × List TranscriptItem).1.speaker_id) ∧
     (⟨⟨0, 1, "a", none, some "spk_0"⟩,
       [⟨some 0, some 1, "pronunciation", [⟨none, "a"⟩], some "spk_0"⟩]⟩ :
        TranscriptSegment × List TranscriptItem).2.head?.map TranscriptItem.speaker_label =
       some (⟨⟨0, 1, "a", none, some "spk_0"⟩,
         [⟨some 0, some 1, "pronunciation", [⟨none, "a"⟩], some "spk_0"⟩]⟩ :
         TranscriptSegment × List TranscriptItem).1.speaker_id) :=
  (c5_speaker_purity 30
    [⟨some 0, some 1, "pronunciation", [⟨none, "a"⟩], some "spk_0"⟩,
     ⟨some 1, some 2, "pronunciation", [⟨none, "b"⟩], some "spk_1"⟩]).1
    _ (by with_unfolding_all decide)

/-- C7: the confidence aggregator returns `none` (not 0) on the empty list
and the arithmetic mean otherwise; it is a pure function (same list, same
value); the overall confidence is the aggregator applied to the
per-segment confidences (hence `none` when no segment has one), both as
`calculate_average_confidence` and inside the final metadata; and every
emitted segment's confidence is the mean of the per-item confidences
observed in it. -/
theorem c7_confidence_aggregation :
    average_confidence [] = none ∧
    (∀ l : List ℚ, l ≠ [] → average_confidence l = some (l.sum / (l.length : ℚ))) ∧
    (∀ l : List ℚ, average_confidence l = average_confidence l) ∧
    (∀ segs : List TranscriptSegment,
      calculate_average_confidence segs =
        average_confidence (segs.filterMap fun s => s.confidence)) ∧
    (∀ segs : List TranscriptSegment, (∀ s ∈ segs, s.confidence = none) →
      calculate_average_confidence segs = none) ∧
    (∀ (m : ℚ) (results : TranscriptResults),
      (process_transcription_result m results).metadata.confidence =
        calculate_average_confidence (process_transcription_result m results).segments) ∧
    (∀ (m : ℚ) (items : List TranscriptItem), ∀ p ∈ process_segmentsG m items,
      p.1.confidence = average_confidence (p.2.filterMap itemConf)) := by
  refine ⟨rfl, ?_, fun l => rfl, fun segs => rfl, ?_, fun m results => rfl, ?_⟩
  · intro l hl
    simp [average_confidence, hl]
  · intro segs hnone
    have hnil : segs.filterMap (fun s => s.confidence) = [] :=
      List.filterMap_eq_nil_iff.mpr hnone
    simp [calculate_average_confidence, hnil, average_confidence]
  · intro m items p hpmem
    obtain ⟨hconf, hspk, hne, hsegs⟩ := ghostInv_foldl m items initSegStateG ghostInv_init
    unfold process_segmentsG at hpmem
    rw [List.mem_append] at hpmem
    rcases hpmem with h1 | h2
    · exact (hsegs p h1).2.1
    · obtain ⟨h2a, h2b, _, _⟩ := mem_closeSegmentG _ p h2
      rw [h2b, hconf, h2a]

/-- Witness for C7: the aggregator on the concrete non-empty list
`[1/2, 1]` returns the arithmetic mean. -/
theorem c7_witness :
    average_confidence [(1:ℚ)/2, 1] =
      some (List.sum [(1:ℚ)/2, 1] / ((List.length [(1:ℚ)/2, 1] : Nat) : ℚ)) :=
  c7_confidence_aggregation.2.1 [(1:ℚ)/2, 1] (by simp)

/-- Helper: a segment emitted by `closeSegment` carries exactly the
accumulator's start and end times, text, confidence average and speaker. -/
theorem mem_closeSegment (st : SegState) (seg : TranscriptSegment)
    (h : seg ∈ closeSegment st) :
    st.current_start_time = some seg.start_time ∧
    st.current_end_time = some seg.end_time ∧
    seg.confidence = average_confidence st.confidences ∧
    seg.speaker_id = st.current_speaker := by
  unfold closeSegment at h
  by_cases ht : st.current_segment_text = ""
  · simp [ht] at h
  · rw [if_pos ht] at h
    cases hs : st.current_start_time with
    | none => simp only [hs] at h; simp at h
    | some s =>
      cases he : st.current_end_time with
      | none => simp only [hs, he] at h; simp at h
      | some e =>
        simp only [hs, he, List.mem_singleton] at h
        subst h
        exact ⟨rfl, rfl, rfl, rfl⟩

/-- Helper: one segmentation step preserves the span bound
`end − start ≤ max_segment_length + D` for every emitted segment and for
the open accumulator, provided the incoming item is fully timed (when a
pronunciation) with single-item duration at most `D`. -/
theorem lenInv_processItem (m D : ℚ) (hm : 0 < m) (st : SegState) (item : TranscriptItem)
    (hti : item.item_type = "pronunciation" → item.start_time.isSome ∧ item.end_time.isSome)
    (hdi : ∀ s e, item.start_time = some s → item.end_time = some e → e - s ≤ D)
    (hsegs : ∀ seg ∈ st.segments, seg.end_time - seg.start_time ≤ m + D)
    (hacc : ∀ s e, st.current_start_time = some s → st.current_end_time = some e →
      e - s ≤ m + D) :
    (∀ seg ∈ (processItem m st item).segments, seg.end_time - seg.start_time ≤ m + D) ∧
    (∀ s e, (processItem m st item).current_start_time = some s →
      (processItem m st item).current_end_time = some e → e - s ≤ m + D) := by
  by_cases hp : item.item_type = "pronunciation"
  · obtain ⟨hs1, he1⟩ := hti hp
    obtain ⟨s', hs'⟩ := Option.isSome_iff_exists.mp hs1
    obtain ⟨e', he'⟩ := Option.isSome_iff_exists.mp he1
    have hdur : e' - s' ≤ D := hdi s' e' hs' he'
    cases hsplit : splitDecision m st item with
    | true =>
      rw [processItem_split m st item hp hsplit]
      constructor
      · intro seg hseg
        rw [List.mem_append] at hseg
        rcases hseg with h1 | h2
        · exact hsegs seg h1
        · obtain ⟨ha, hb, _, _⟩ := mem_closeSegment st seg h2
          exact hacc _ _ ha hb
      · intro s e hs2 he2
        simp only [hs', he'] at hs2 he2
        rw [Option.some_inj] at hs2 he2
        subst hs2; subst he2
        have : D ≤ m + D := le_add_of_nonneg_left (le_of_lt hm)
        linarith
    | false =>
      rw [processItem_absorb m st item hp hsplit]
      refine ⟨hsegs, ?_⟩
      intro s e hs2 he2
      simp only at hs2 he2
      simp only [Option.or, he', Option.some_inj] at he2
      subst he2
      have htoolong := (splitDecision_false_parts m st item hsplit).2.2.1
      have hss : s' - s ≤ m := htoolong s' s hs' hs2
      linarith
  · by_cases hq : item.item_type = "punctuation"
    · rw [processItem_punct m st item hq]
      cases ha : item.alternatives.head? with
      | none => exact ⟨hsegs, hacc⟩
      | some alt => exact ⟨hsegs, hacc⟩
    · rw [processItem_other m st item hp hq]
      exact ⟨hsegs, hacc⟩

/-- Helper: the span bound holds after folding any suitably-timed item
list. -/
theorem lenInv_foldl (m D : ℚ) (hm : 0 < m) (items : List TranscriptItem)
    (ht : ∀ it ∈ items, it.item_type = "pronunciation" →
      it.start_time.isSome ∧ it.end_time.isSome)
    (hD : ∀ it ∈ items, ∀ s e, it.start_time = some s → it.end_time = some e → e - s ≤ D) :
    ∀ st : SegState,
      (∀ seg ∈ st.segments, seg.end_time - seg.start_time ≤ m + D) →
      (∀ s e, st.current_start_time = some s → st.current_end_time = some e →
        e - s ≤ m + D) →
      (∀ seg ∈ (items.foldl (processItem m) st).segments,
        seg.end_time - seg.start_time ≤ m + D) ∧
      (∀ s e, (items.foldl (processItem m) st).current_start_time = some s →
        (items.foldl (processItem m) st).current_end_time = some e → e - s ≤ m + D) := by
  induction items with
  | nil => intro st h1 h2; exact ⟨h1, h2⟩
  | cons it rest ih =>
    intro st h1 h2
    have hstep := lenInv_processItem m D hm st it
      (ht it (List.mem_cons_self it rest))
      (hD it (List.mem_cons_self it rest)) h1 h2
    exact ih (fun x hx => ht x (List.mem_cons_of_mem it hx))
      (fun x hx => hD x (List.mem_cons_of_mem it hx)) _ hstep.1 hstep.2

/-- C2 (counterexample): with `max_segment_length = 10`, the two items
"a" (0–9) and "b" (9.5–15) — same speaker, gap 0.5s, every single item's
duration at most 10 — merge into ONE segment spanning 0–15, whose span 15
exceeds the cap although the segment does not consist of a single item
whose own duration exceeds the cap (no item's duration exceeds it at
all). -/
theorem c2_counterexample :
    (process_segments 10
      [⟨some 0, some 9, "pronunciation", [⟨none, "a"⟩], none⟩,
       ⟨some (19/2), some 15, "pronunciation", [⟨none, "b"⟩], none⟩]).1 =
      [⟨0, 15, "a b", none, none⟩] ∧
    (15 : ℚ) - 0 > 10 ∧
    (∀ it ∈ [(⟨some 0, some 9, "pronunciation", [⟨none, "a"⟩], none⟩ : TranscriptItem),
             ⟨some (19/2), some 15, "pronunciation", [⟨none, "b"⟩], none⟩],
      ∀ s e, it.start_time = some s → it.end_time = some e → e - s ≤ 10) := by
  refine ⟨by with_unfolding_all decide, by with_unfolding_all decide, ?_⟩
  intro it hit s e hs he
  fin_cases hit <;> simp_all <;> linarith

/-- C2 (amended): for positive `max_segment_length`, on inputs whose
pronunciation items all carry parseable start and end times and whose
single-item durations are bounded by `D`, every emitted segment's span
(`end_time − start_time`) is at most `max_segment_length + D`: the cap can
be overrun, but only by up to the duration of the segment's final absorbed
item — not only in the single-item case the original claim allowed. -/
theorem c2_length_cap (m D : ℚ) (items : List TranscriptItem)
    (hm : 0 < m)
    (ht : ∀ it ∈ items, it.item_type = "pronunciation" →
      it.start_time.isSome ∧ it.end_time.isSome)
    (hD : ∀ it ∈ items, ∀ s e, it.start_time = some s → it.end_time = some e → e - s ≤ D) :
    ∀ seg ∈ (process_segments m items).1, seg.end_time - seg.start_time ≤ m + D := by
  obtain ⟨h1, h2⟩ := lenInv_foldl m D hm items ht hD initSegState
    (by intro seg hseg; simp [initSegState] at hseg)
    (by intro s e hs he; simp [initSegState] at hs)
  intro seg hseg
  unfold process_segments at hseg
  rw [List.mem_append] at hseg
  rcases hseg with h | h
  · exact h1 seg h
  · obtain ⟨ha, hb, _, _⟩ := mem_closeSegment _ seg h
    exact h2 _ _ ha hb

/-- Witness for C2: on the counterexample input with `D = 10`, the emitted
segment's span obeys the amended bound `10 + 10`. -/
theorem c2_witness :
    (⟨0, 15, "a b", none, none⟩ : TranscriptSegment).end_time -
      (⟨0, 15, "a b", none, none⟩ : TranscriptSegment).start_time ≤ 10 + 10 :=
  c2_length_cap 10 10
    [⟨some 0, some 9, "pronunciation", [⟨none, "a"⟩], none⟩,
     ⟨some (19/2), some 15, "pronunciation", [⟨none, "b"⟩], none⟩]
    (by norm_num)
    (by with_unfolding_all decide)
    (by intro it hit s e hs he; fin_cases hit <;> simp_all <;> linarith)
    _ (by with_unfolding_all decide)

/-- C9: the split triggers use strict comparisons.  With a known item start
`s` and accumulator end `e`: a gap `s − e > 1` forces a split (and the new
segment begins at that item: the accumulator is reset to the item's
content and times after closing the previous segment); a gap of exactly 1
does not by itself split.  With a known accumulator start `ss`: a span
`s − ss > max_segment_length` forces a split while equality does not, and
the natural-break threshold `s − ss > max_segment_length / 2` is likewise
strict (it splits only together with sentence-final punctuation, and
equality never splits by itself). -/
theorem c9_strict_split_thresholds (m : ℚ) (st : SegState) (item : TranscriptItem)
    (hm : 0 < m)
    (hp : item.item_type = "pronunciation")
    (s e : ℚ) (hs : item.start_time = some s) (he : st.current_end_time = some e) :
    (s - e > 1 →
      splitDecision m st item = true ∧
      (processItem m st item).current_start_time = some s ∧
      (processItem m st item).current_segment_text =
        ((item.alternatives.head?).map fun alt => alt.content).getD "" ∧
      (processItem m st item).segments = st.segments ++ closeSegment st) ∧
    (s - e = 1 → st.current_speaker = item.speaker_label →
      st.current_segment_text ≠ "" → st.current_start_time = none →
      splitDecision m st item = false) ∧
    (∀ ss, st.current_start_time = some ss →
      ((s - ss > m → splitDecision m st item = true) ∧
       (s - ss = m → st.current_speaker = item.speaker_label →
         st.current_segment_text ≠ "" → s - e ≤ 1 →
         endsWithChar (((item.alternatives.head?).map fun alt => alt.content).getD "") '.' = false →
         endsWithChar (((item.alternatives.head?).map fun alt => alt.content).getD "") '!' = false →
         endsWithChar (((item.alternatives.head?).map fun alt => alt.content).getD "") '?' = false →
         splitDecision m st item = false) ∧
       (s - ss > m / 2 →
         endsWithChar (((item.alternatives.head?).map fun alt => alt.content).getD "") '.' = true →
         splitDecision m st item = true) ∧
       (s - ss = m / 2 → st.current_speaker = item.speaker_label →
         st.current_segment_text ≠ "" → s - e ≤ 1 →
         splitDecision m st item = false))) := by
  refine ⟨?_, ?_, ?_⟩
  · intro hgap
    have hsd : splitDecision m st item = true := by
      simp [splitDecision, hs, he, hgap]
    refine ⟨hsd, ?_, ?_, ?_⟩
    · rw [processItem_split m st item hp hsd, hs]
    · rw [processItem_split m st item hp hsd]
    · rw [processItem_split m st item hp hsd]
  · intro hgap hspk htext hstart
    simp [splitDecision, hs, he, hstart, hspk, htext, hgap]
  · intro ss hss
    refine ⟨?_, ?_, ?_, ?_⟩
    · intro hlong
      simp [splitDecision, hs, hss, hlong]
    · intro hlong hspk htext hgap hdot hbang hquest
      have hnotgap : ¬ (1 < s - e) := not_lt.mpr hgap
      simp [splitDecision, hs, he, hss, hspk, htext, hlong, hnotgap, hdot, hbang, hquest]
    · intro hhalf hdot
      simp [splitDecision, hs, hss, hhalf, hdot]
    · intro hhalf hspk htext hgap
      have hnotgap : ¬ (1 < s - e) := not_lt.mpr hgap
      have hnotlong : ¬ (m < s - ss) := by
        rw [hhalf]
        exact not_lt.mpr (le_of_lt (half_lt_self hm))
      simp [splitDecision, hs, he, hss, hspk, htext, hhalf, hnotgap, hnotlong, le_of_lt hm]

/-- Witness for C9: with the accumulator ending at time 0 and an incoming
pronunciation item starting at time 2 (gap 2 > 1), the split fires and the
accumulator is reset to that item. -/
theorem c9_witness :
    splitDecision 10 ⟨[], "a", some 0, some 0, [], none⟩
      ⟨some 2, some 3, "pronunciation", [⟨none, "b"⟩], none⟩ = true ∧
    (processItem 10 ⟨[], "a", some 0, some 0, [], none⟩
      ⟨some 2, some 3, "pronunciation", [⟨none, "b"⟩], none⟩).current_start_time = some 2 ∧
    (processItem 10 ⟨[], "a", some 0, some 0, [], none⟩
      ⟨some 2, some 3, "pronunciation", [⟨none, "b"⟩], none⟩).current_segment_text =
      (((⟨some 2, some 3, "pronunciation", [⟨none, "b"⟩], none⟩ :
        TranscriptItem).alternatives.head?).map fun alt => alt.content).getD "" ∧
    (processItem 10 ⟨[], "a", some 0, some 0, [], none⟩
      ⟨some 2, some 3, "pronunciation", [⟨none, "b"⟩], none⟩).segments =
      ([] : List TranscriptSegment) ++ closeSegment ⟨[], "a", some 0, some 0, [], none⟩ :=
  (c9_strict_split_thresholds 10 ⟨[], "a", some 0, some 0, [], none⟩
    ⟨some 2, some 3, "pronunciation", [⟨none, "b"⟩], none⟩
    (by norm_num) rfl 2 0 rfl rfl).1 (by norm_num)

/-- Helper: the accumulator closes to the empty list or to a single
segment. -/
theorem closeSegment_cases (st : SegState) :
    closeSegment st = [] ∨ ∃ c, closeSegment st = [c] := by
  unfold closeSegment
  by_cases ht : st.current_segment_text = ""
  · left; simp [ht]
  · rw [if_pos ht]
    cases st.current_start_time
    · left; rfl
    · cases st.current_end_time
      · left; rfl
      · right; exact ⟨_, rfl⟩

/-- Helper: closing the accumulator preserves the segment chain and the
per-segment `start ≤ end` bound, and the closed list's last segment ends
no later than `prev`. -/
theorem ordInv_close (st : SegState) (prev : Option ℚ) (hinv : OrdInv prev st) :
    List.Chain' (fun a b => a.end_time ≤ b.start_time) (st.segments ++ closeSegment st) ∧
    (∀ seg ∈ st.segments ++ closeSegment st, seg.start_time ≤ seg.end_time) ∧
    (∀ L, (st.segments ++ closeSegment st).getLast? = some L →
      ∃ q, prev = some q ∧ L.end_time ≤ q) := by
  obtain ⟨hend, hB, hC, hchain, hmono⟩ := hinv
  rcases closeSegment_cases st with h0 | ⟨c, h1⟩
  · rw [h0, List.append_nil]
    refine ⟨hchain, hmono, ?_⟩
    intro L hL
    cases hs : st.current_start_time with
    | none => rw [hB hs] at hL; cases hL
    | some s =>
      obtain ⟨⟨q, hq, hsq⟩, hlast⟩ := hC s hs
      exact ⟨q, hq, le_trans (hlast L hL) hsq⟩
  · obtain ⟨hcs1, hce1, _, _⟩ :=
      mem_closeSegment st c (by rw [h1]; exact List.mem_singleton.mpr rfl)
    have hprevc : prev = some c.end_time := by rw [← hend, hce1]
    obtain ⟨⟨q, hq, hsq⟩, hlast⟩ := hC c.start_time hcs1
    have hcse : c.start_time ≤ c.end_time := by
      rw [hprevc] at hq
      rw [Option.some_inj] at hq
      rw [← hq] at hsq
      exact hsq
    rw [h1]
    refine ⟨?_, ?_, ?_⟩
    · rw [List.chain'_append]
      refine ⟨hchain, List.chain'_singleton c, ?_⟩
      intro x hx y hy
      simp only [List.head?_cons, Option.mem_def, Option.some_inj] at hy
      subst hy
      exact hlast x hx
    · intro seg hseg
      rw [List.mem_append] at hseg
      rcases hseg with h | h
      · exact hmono seg h
      · rw [List.mem_singleton] at h
        subst h
        exact hcse
    · intro L hL
      rw [List.getLast?_concat] at hL
      rw [Option.some_inj] at hL
      subst hL
      exact ⟨c.end_time, hprevc, le_refl _⟩

/-- Helper: a pronunciation item compatible with `prev` preserves the
ordering invariant, advancing `prev` to the item's end time. -/
theorem ordInv_step_pron (m : ℚ) (st : SegState) (item : TranscriptItem) (prev : Option ℚ)
    (hp : item.item_type = "pronunciation")
    (s' e' : ℚ) (hs' : item.start_time = some s') (he' : item.end_time = some e')
    (hse : s' ≤ e') (hprev : ∀ p, prev = some p → p ≤ s')
    (hinv : OrdInv prev st) :
    OrdInv (some e') (processItem m st item) := by
  have hclose := ordInv_close st prev hinv
  obtain ⟨hend, hB, hC, hchain, hmono⟩ := hinv
  cases hsplit : splitDecision m st item with
  | true =>
    rw [processItem_split m st item hp hsplit]
    refine ⟨he', ?_, ?_, hclose.1, hclose.2.1⟩
    · intro h0
      rw [hs'] at h0
      cases h0
    · intro s hsom
      rw [hs', Option.some_inj] at hsom
      subst hsom
      refine ⟨⟨e', rfl, hse⟩, ?_⟩
      intro L hL
      obtain ⟨q, hq, hLq⟩ := hclose.2.2 L hL
      exact le_trans hLq (hprev q hq)
  | false =>
    rw [processItem_absorb m st item hp hsplit]
    refine ⟨?_, hB, ?_, hchain, hmono⟩
    · show item.end_time.or st.current_end_time = some e'
      rw [he']
      rfl
    · intro s hsom
      obtain ⟨⟨q, hq, hsq⟩, hlast⟩ := hC s hsom
      have hqs' : q ≤ s' := hprev q hq
      exact ⟨⟨e', rfl, le_trans hsq (le_trans hqs' hse)⟩, hlast⟩

/-- Helper: a non-pronunciation item leaves the ordering invariant (and
`prev`) unchanged. -/
theorem ordInv_step_nonpron (m : ℚ) (st : SegState) (item : TranscriptItem)
    (prev : Option ℚ) (hp : ¬ item.item_type = "pronunciation")
    (hinv : OrdInv prev st) :
    OrdInv prev (processItem m st item) := by
  obtain ⟨hend, hB, hC, hchain, hmono⟩ := hinv
  by_cases hq : item.item_type = "punctuation"
  · rw [processItem_punct m st item hq]
    cases ha : item.alternatives.head? with
    | none => exact ⟨hend, hB, hC, hchain, hmono⟩
    | some alt => exact ⟨hend, hB, hC, hchain, hmono⟩
  · rw [processItem_other m st item hp hq]
    exact ⟨hend, hB, hC, hchain, hmono⟩

/-- Helper: folding a time-ordered item list preserves the ordering
invariant for some final `prev`. -/
theorem ordInv_fold (m : ℚ) (items : List TranscriptItem) : ∀ (st : SegState) (prev : Option ℚ),
    timeOrdered prev items = true → OrdInv prev st →
    ∃ prev2, OrdInv prev2 (items.foldl (processItem m) st) := by
  induction items with
  | nil => intro st prev _ hinv; exact ⟨prev, hinv⟩
  | cons it rest ih =>
    intro st prev hord hinv
    rw [List.foldl_cons]
    by_cases hp : it.item_type = "pronunciation"
    · cases hs' : it.start_time with
      | none => rw [timeOrdered, if_pos hp, hs'] at hord; cases he2 : it.end_time <;>
          rw [he2] at hord <;> cases hord
      | some s' =>
        cases he' : it.end_time with
        | none => rw [timeOrdered, if_pos hp, hs', he'] at hord; cases hord
        | some e' =>
          rw [timeOrdered, if_pos hp, hs', he'] at hord
          simp only [Bool.and_eq_true, decide_eq_true_eq] at hord
          obtain ⟨⟨hse, hpr⟩, hrest⟩ := hord
          have hprev : ∀ p, prev = some p → p ≤ s' := by
            intro p hpe
            rw [hpe] at hpr
            simpa using hpr
          exact ih _ (some e') hrest
            (ordInv_step_pron m st it prev hp s' e' hs' he' hse hprev hinv)
    · rw [timeOrdered, if_neg hp] at hord
      exact ih _ prev hord (ordInv_step_nonpron m st it prev hp hinv)

/-- Helper: a chain of `end ≤ next start` together with `start ≤ end`
inside each segment yields non-decreasing start times. -/
theorem chain_start_mono (l : List TranscriptSegment)
    (h1 : List.Chain' (fun a b => a.end_time ≤ b.start_time) l)
    (h2 : ∀ seg ∈ l, seg.start_time ≤ seg.end_time) :
    List.Chain' (fun a b => a.start_time ≤ b.start_time) l := by
  induction l with
  | nil => exact List.chain'_nil
  | cons a t ih =>
    cases t with
    | nil => simp
    | cons b t2 =>
      rw [List.chain'_cons] at h1 ⊢
      refine ⟨le_trans (h2 a (List.mem_cons_self a _)) h1.1, ih h1.2 ?_⟩
      intro seg hseg
      exact h2 seg (List.mem_cons_of_mem a hseg)

/-- C6 (counterexample): on an input whose items are NOT in temporal order
(the claim quantifies over all inputs), a speaker change splits the items
into two segments with DECREASING start times (100 then 0) that overlap
(end 101 > next start 0), refuting both parts of the claim. -/
theorem c6_counterexample :
    (process_segments 30
      [⟨some 100, some 101, "pronunciation", [⟨none, "a"⟩], some "A"⟩,
       ⟨some 0, some 1, "pronunciation", [⟨none, "b"⟩], some "B"⟩]).1 =
      [⟨100, 101, "a", none, some "A"⟩, ⟨0, 1, "b", none, some "B"⟩] ∧
    ¬ List.Chain' (fun a b => a.start_time ≤ b.start_time)
      (process_segments 30
        [⟨some 100, some 101, "pronunciation", [⟨none, "a"⟩], some "A"⟩,
         ⟨some 0, some 1, "pronunciation", [⟨none, "b"⟩], some "B"⟩]).1 ∧
    ¬ List.Chain' (fun a b => a.end_time ≤ b.start_time)
      (process_segments 30
        [⟨some 100, some 101, "pronunciation", [⟨none, "a"⟩], some "A"⟩,
         ⟨some 0, some 1, "pronunciation", [⟨none, "b"⟩], some "B"⟩]).1 := by
  have hout : (process_segments 30
      [⟨some 100, some 101, "pronunciation", [⟨none, "a"⟩], some "A"⟩,
       ⟨some 0, some 1, "pronunciation", [⟨none, "b"⟩], some "B"⟩]).1 =
      [⟨100, 101, "a", none, some "A"⟩, ⟨0, 1, "b", none, some "B"⟩] := by
    with_unfolding_all decide
  refine ⟨hout, ?_, ?_⟩
  · rw [hout]
    intro hch
    rw [List.chain'_cons] at hch
    have h100 : (100 : ℚ) ≤ 0 := hch.1
    norm_num at h100
  · rw [hout]
    intro hch
    rw [List.chain'_cons] at hch
    have h101 : (101 : ℚ) ≤ 0 := hch.1
    norm_num at h101

/-- C6 (amended): on inputs satisfying the data-model invariant — every
pronunciation item has parseable start and end times with `start ≤ end`,
and items appear in temporal order without overlap (`timeOrdered`) — the
emitted segments never overlap (`segments[i].end_time ≤
segments[i+1].start_time`), have non-decreasing start times, and each
satisfies `start_time ≤ end_time`. -/
theorem c6_segment_ordering (m : ℚ) (items : List TranscriptItem)
    (hord : timeOrdered none items = true) :
    List.Chain' (fun a b => a.end_time ≤ b.start_time) (process_segments m items).1 ∧
    List.Chain' (fun a b => a.start_time ≤ b.start_time) (process_segments m items).1 ∧
    (∀ seg ∈ (process_segments m items).1, seg.start_time ≤ seg.end_time) := by
  have hinit : OrdInv none initSegState := by
    refine ⟨rfl, fun _ => rfl, ?_, List.chain'_nil, ?_⟩
    · intro s hsom
      cases hsom
    · intro seg hseg
      cases hseg
  obtain ⟨prev2, hinv⟩ := ordInv_fold m items initSegState none hord hinit
  have hclose := ordInv_close _ prev2 hinv
  have hout : (process_segments m items).1 =
      (items.foldl (processItem m) initSegState).segments ++
        closeSegment (items.foldl (processItem m) initSegState) := rfl
  rw [hout]
  exact ⟨hclose.1, chain_start_mono _ hclose.1 hclose.2.1, hclose.2.1⟩

/-- Witness for C6: a concrete time-ordered two-speaker input produces two
chained segments. -/
theorem c6_witness :
    List.Chain' (fun a b => a.end_time ≤ b.start_time)
      (process_segments 30
        [⟨some 0, some 1, "pronunciation", [⟨none, "a"⟩], some "A"⟩,
         ⟨some 1, some 2, "pronunciation", [⟨none, "b"⟩], some "B"⟩]).1 ∧
    List.Chain' (fun a b => a.start_time ≤ b.start_time)
      (process_segments 30
        [⟨some 0, some 1, "pronunciation", [⟨none, "a"⟩], some "A"⟩,
         ⟨some 1, some 2, "pronunciation", [⟨none, "b"⟩], some "B"⟩]).1 :=
  ⟨(c6_segment_ordering 30
      [⟨some 0, some 1, "pronunciation", [⟨none, "a"⟩], some "A"⟩,
       ⟨some 1, some 2, "pronunciation", [⟨none, "b"⟩], some "B"⟩]
      (by with_unfolding_all decide)).1,
   (c6_segment_ordering 30
      [⟨some 0, some 1, "pronunciation", [⟨none, "a"⟩], some "A"⟩,
       ⟨some 1, some 2, "pronunciation", [⟨none, "b"⟩], some "B"⟩]
      (by with_unfolding_all decide)).2.1⟩
